import Mathlib

/-!
Verification of the doc-agents pipeline core against its specification.

Go strings are modelled as lists of characters; Go machine integers are
modelled as unbounded integers with explicit wrapping where 64-bit overflow
matters; fallible calls are modelled with Option or Except; collaborator
calls (store, queue transport, LLM, embedder, hash digest) are modelled as
explicit environments of outcomes.
-/

namespace DocAgents

/-! ## Chunker (internal/chunker/chunker.go) -/

namespace Chunker

/-- Whitespace predicate used by the tokenizer; models Go strings.Fields
whitespace splitting (space, tab, newline, vertical tab, form feed, carriage
return, NEL, NBSP). Unicode space code points above Latin-1 are not
modelled; the chunking theorems do not depend on which characters count
as whitespace. -/
def isSpaceChar (c : Char) : Bool :=
  c = ' ' || c = '\t' || c = '\n' || c = '\x0b' || c = '\x0c' || c = '\r' ||
  c = '\x85' || c = '\xa0'

/-- Accumulating splitter behind fields: walks the string, gathering the
current word in reverse in acc, emitting it at each whitespace run or at
the end. -/
def fieldsAux : List Char → List Char → List (List Char)
  | [], acc => if acc.isEmpty then [] else [acc.reverse]
  | c :: s, acc =>
    if isSpaceChar c then
      if acc.isEmpty then fieldsAux s [] else acc.reverse :: fieldsAux s []
    else fieldsAux s (c :: acc)

/-- Models strings.Fields: splits a string around runs of whitespace,
returning the non-empty words. -/
def fields (s : List Char) : List (List Char) :=
  fieldsAux s []

/-- Models strings.Join(words, " "). -/
def joinWords : List (List Char) → List Char
  | [] => []
  | [w] => w
  | w :: ws => w ++ ' ' :: joinWords ws

/-- Options controls how text is chunked (chunker.Options). -/
structure Options where
  maxTokens : Int
  overlap : Int

/-- Chunk represents a slice of the document text (chunker.Chunk). -/
structure Chunk where
  index : Nat
  text : List Char
  tokenCount : Nat
deriving DecidableEq

/-- Effective window size: MaxTokens after the ChunkText normalization
(values at most 0 are replaced by the default 400). -/
def effMaxTokens (o : Options) : Nat :=
  if o.maxTokens ≤ 0 then 400 else o.maxTokens.toNat

/-- Effective overlap: Overlap after the ChunkText normalization (negative
values are replaced by 0). -/
def effOverlap (o : Options) : Nat :=
  if o.overlap < 0 then 0 else o.overlap.toNat

/-- The loop stride: maxTokens - overlap, falling back to maxTokens when
that difference is not positive (the overlap ≥ maxTokens guard). -/
def stride (o : Options) : Nat :=
  if effMaxTokens o - effOverlap o = 0 then effMaxTokens o
  else effMaxTokens o - effOverlap o

/-- The token windows produced by the ChunkText for-loop, one unit of fuel
per iteration (so termination within a fuel bound is an explicit theorem,
not an assumption): each window is words[start : start+m] clipped to the
end of the list; the loop stops once a window reaches the end, else
advances by the stride s. Returns none if the fuel runs out first. -/
def windowsLoop (words : List (List Char)) (m s : Nat) :
    Nat → Nat → Option (List (List (List Char)))
  | 0, _ => none
  | fuel + 1, start =>
    if start < words.length then
      let w := (words.drop start).take m
      if start + m ≥ words.length then some [w]
      else (windowsLoop words m s fuel (start + s)).map (w :: ·)
    else some []

/-- ChunkText performs a simple token-based sliding window with overlap
(chunker.ChunkText). Tokens are whitespace-delimited words. The loop is
run with fuel one more than the token count, which is proved sufficient
(windowsLoop_some); the none branch is unreachable. -/
def ChunkText (text : List Char) (opts : Options) : List Chunk :=
  let words := fields text
  if words.length = 0 then []
  else
    match windowsLoop words (effMaxTokens opts) (stride opts)
        (words.length + 1) 0 with
    | some ws =>
      ws.mapIdx fun i w => { index := i, text := joinWords w, tokenCount := w.length }
    | none => []

/-- Reconstruction of a token stream from windows: every window except the
last keeps all but its final v tokens; the last window is kept whole. -/
def reconTokens (v : Nat) : List (List (List Char)) → List (List Char)
  | [] => []
  | [w] => w
  | w :: ws => w.take (w.length - v) ++ reconTokens v ws

/-- Chunk-level reconstruction: re-tokenize each chunk text and glue the
windows back together, dropping the trailing v tokens of every chunk but
the last. -/
def reconChunks (v : Nat) (cs : List Chunk) : List (List Char) :=
  reconTokens v (cs.map fun c => fields c.text)

end Chunker

/-! ## Task queue retry semantics (internal/retry/backoff.go,
internal/queue/nats.go, internal/queue/queue.go) -/

namespace Queue

/-- Wrap an unbounded integer into the two's-complement int64 range,
modelling Go int64 / time.Duration overflow. -/
def toInt64 (n : Int) : Int :=
  (n + 2 ^ 63) % 2 ^ 64 - 2 ^ 63

/-- retry.ExponentialBackoff: base * (1 << attempt) in Go int64
arithmetic; both the shift and the product wrap modulo 2^64. Go panics on
a negative shift count, so the model takes a natural attempt count. -/
def ExponentialBackoff (attempt : Nat) (base : Int) : Int :=
  toInt64 (base * toInt64 (2 ^ attempt))

/-- One second in time.Duration units (nanoseconds). -/
def second : Int := 1000000000

/-- queue.Task. The id, type and payload are opaque here. -/
structure Task where
  id : Nat
  type : String
  payload : List Nat
  attempts : Int
  maxAttempts : Int
  notBefore : Int
deriving DecidableEq

/-- natsQueue.retryTask: invoked when a handler returns an error. It
increments Attempts, defaults MaxAttempts to 5 when zero, and either
returns the task to re-publish with NotBefore pushed forward by the
exponential backoff (some), or drops it as permanently failed, only
logging it (none). -/
def retryTask (now : Int) (task : Task) : Option Task :=
  let attempts' := task.attempts + 1
  let maxA := if task.maxAttempts = 0 then 5 else task.maxAttempts
  if attempts' < maxA then
    some { task with
      attempts := attempts',
      maxAttempts := maxA,
      notBefore := now + ExponentialBackoff attempts'.toNat second }
  else
    none

/-- MaxAttempts with the retryTask zero default applied. -/
def effectiveMax (t : Task) : Int :=
  if t.maxAttempts = 0 then 5 else t.maxAttempts

/-- Number of times a task is handled when its handler fails on every
delivery and every re-publish succeeds: one handling now, plus the
handlings of the re-published task, if any. -/
def alwaysFailDeliveries (now : Int) (t : Task) : Nat :=
  match h : retryTask now t with
  | some t' => 1 + alwaysFailDeliveries now t'
  | none => 1
termination_by (effectiveMax t - t.attempts).toNat
decreasing_by
  simp only [retryTask] at h
  split at h
  all_goals split at h
  all_goals
    first
    | exact Option.noConfusion h
    | (injection h with h'
       subst h'
       simp only [effectiveMax]
       repeat' split
       all_goals omega)

/-- Outcome of queue.EnqueueWithRetry. -/
inductive RetryOutcome (E : Type) where
  | success
  | ctxCancelled
  | failed (e : E)
deriving DecidableEq

/-- Observable trace of one EnqueueWithRetry run: its return value, the
number of Enqueue calls made, and the fully-elapsed backoff waits. -/
structure RetryTrace (E : Type) where
  outcome : RetryOutcome E
  calls : Nat
  waits : List Int
deriving DecidableEq

/-- The attempts bound after EnqueueWithRetry normalizes non-positive
values to 1. -/
def enqueueAttempts (attempts : Int) : Nat :=
  if attempts ≤ 0 then 1 else attempts.toNat

/-- The EnqueueWithRetry loop from iteration attempt on: enq gives each
Enqueue call's result (none = success), cancelled says whether the caller
cancels during the wait following that failed attempt. -/
def enqueueWithRetryLoop {E : Type} (enq : Nat → Option E)
    (cancelled : Nat → Bool) (base : Int) (attempts attempt : Nat) :
    RetryTrace E :=
  if h : attempt < attempts then
    match enq attempt with
    | none => ⟨.success, 1, []⟩
    | some e =>
      if attempt = attempts - 1 then ⟨.failed e, 1, []⟩
      else if cancelled attempt then ⟨.ctxCancelled, 1, []⟩
      else
        let r := enqueueWithRetryLoop enq cancelled base attempts (attempt + 1)
        ⟨r.outcome, r.calls + 1, ExponentialBackoff attempt base :: r.waits⟩
  else ⟨.success, 0, []⟩
termination_by attempts - attempt
decreasing_by omega

/-- queue.EnqueueWithRetry: normalizes the attempts bound then runs the
retry loop from attempt 0. -/
def EnqueueWithRetry {E : Type} (enq : Nat → Option E)
    (cancelled : Nat → Bool) (attempts : Int) (base : Int) : RetryTrace E :=
  enqueueWithRetryLoop enq cancelled base (enqueueAttempts attempts) 0

end Queue

/-! ## Query-result cache key (internal/cache/redis.go GenerateCacheKey) -/

namespace Cache

/-- The two slices GenerateCacheKey can reach: the caller's docIDs slice
and the private sortedIDs copy. Tracking both makes slice writes and the
frame property explicit. -/
structure KeyGenState where
  docIDs : List String
  sortedIDs : List String
deriving DecidableEq

/-- Inner loop of GenerateCacheKey's sort, on the state: for j from i+1 to
n-1, swap sortedIDs[i] and sortedIDs[j] when out of order. All writes go
to the sortedIDs slice. n is the (constant) slice length. -/
def innerLoopS (n i : Nat) (st : KeyGenState) (j : Nat) : KeyGenState :=
  if j < n then
    let a := st.sortedIDs
    let st' := if a.getD i "" > a.getD j "" then
        { st with sortedIDs := (a.set i (a.getD j "")).set j (a.getD i "") }
      else st
    innerLoopS n i st' (j + 1)
  else st
termination_by n - j
decreasing_by omega

/-- Outer loop of GenerateCacheKey's sort, on the state. -/
def outerLoopS (n : Nat) (st : KeyGenState) (i : Nat) : KeyGenState :=
  if i < n then outerLoopS n (innerLoopS n i st (i + 1)) (i + 1) else st
termination_by n - i
decreasing_by omega

/-- GenerateCacheKey, with the digest abstracted: copies docIDs into a
fresh sortedIDs slice, sorts the copy in place with the double loop,
builds the canonical string q:question|docs:joined|k:topK, and returns
the digest of it, together with the final slice state. -/
def GenerateCacheKeyS (hash : String → String) (question : String)
    (docIDs : List String) (topK : Int) : String × KeyGenState :=
  let st0 : KeyGenState := { docIDs := docIDs, sortedIDs := docIDs }
  let st1 := outerLoopS docIDs.length st0 0
  let data := "q:" ++ question ++ "|docs:" ++
    String.intercalate "," st1.sortedIDs ++ "|k:" ++ toString topK
  (hash data, st1)

/-- The sort's inner loop on a bare list (the sortedIDs slice alone). -/
def innerLoop (n i : Nat) (a : List String) (j : Nat) : List String :=
  if j < n then
    let a' := if a.getD i "" > a.getD j "" then
        (a.set i (a.getD j "")).set j (a.getD i "")
      else a
    innerLoop n i a' (j + 1)
  else a
termination_by n - j
decreasing_by omega

/-- The sort's outer loop on a bare list. -/
def outerLoop (n : Nat) (a : List String) (i : Nat) : List String :=
  if i < n then outerLoop n (innerLoop n i a (i + 1)) (i + 1) else a
termination_by n - i
decreasing_by omega

/-- The in-place exchange sort of GenerateCacheKey, as a function on the
copied slice. -/
def sortStrings (a : List String) : List String :=
  outerLoop a.length a 0

/-- The canonical string hashed by GenerateCacheKey. -/
def canonicalString (question : String) (docIDs : List String)
    (topK : Int) : String :=
  "q:" ++ question ++ "|docs:" ++
    String.intercalate "," (sortStrings docIDs) ++ "|k:" ++ toString topK

/-- GenerateCacheKey's returned key, with the digest abstracted as hash. -/
def GenerateCacheKey (hash : String → String) (question : String)
    (docIDs : List String) (topK : Int) : String :=
  hash (canonicalString question docIDs topK)

/-- One conditional-swap body of the inner loop. -/
def swapStep (i j : Nat) (a : List String) : List String :=
  if a.getD i "" > a.getD j "" then
    (a.set i (a.getD j "")).set j (a.getD i "")
  else a

end Cache

/-! ## LLM answer confidence (internal/llm/openai.go) -/

namespace LLM

/-- One chat completion choice: the message content and the token
log-probabilities when the API returned them (none models a nil Logprobs
content). Probabilities are modelled as rationals and the exponential is
abstracted as a parameter e. -/
structure ChatChoice where
  content : String
  logprobs : Option (List ℚ)

/-- llm.calculateLLMConfidence: 1.0 when log-probabilities are missing or
empty, otherwise the arithmetic mean of e(logprob) over the tokens. -/
def calculateLLMConfidence (e : ℚ → ℚ) (logprobs : Option (List ℚ)) : ℚ :=
  match logprobs with
  | none => 1
  | some [] => 1
  | some content => (content.map e).sum / content.length

/-- The pure tail of OpenAIClient.Answer after the chat call returned:
fails when there is no choice or empty content, otherwise returns the
answer together with contextQuality * calculateLLMConfidence. -/
def Answer (e : ℚ → ℚ) (choices : List ChatChoice) (contextQuality : ℚ) :
    Except String (String × ℚ) :=
  match choices with
  | [] => .error "openai: no choices returned"
  | c :: _ =>
    if c.content = "" then .error "openai: no choices returned"
    else .ok (c.content, contextQuality * calculateLLMConfidence e c.logprobs)

end LLM

/-! ## Query service text truncation (cmd/query/main.go truncate) -/

namespace Query

/-- The ellipsis marker appended by truncate. -/
def ellipsis : List Char := ['.', '.', '.']

/-- Models strings.LastIndex(s, " "): the index of the last space, -1 when
there is none. -/
def lastSpaceIndex : List Char → Int
  | [] => -1
  | c :: rest =>
    let r := lastSpaceIndex rest
    if r ≥ 0 then r + 1
    else if c = ' ' then 0 else -1

/-- truncate limits text to maxLen characters, cutting at the last space
before the cap when there is one at a positive index, otherwise cutting
hard at the cap (cmd/query/main.go). Go indexes bytes; the model treats
the string as the sequence of its characters, which agrees for ASCII
text. -/
def truncate (s : List Char) (maxLen : Nat) : List Char :=
  if s.length ≤ maxLen then s
  else
    let idx := lastSpaceIndex (s.take maxLen)
    if idx > 0 then s.take idx.toNat ++ ellipsis
    else s.take maxLen ++ ellipsis

/-- The property claimed for truncate at cap 150: the result either equals
the input or ends at a space boundary followed by the ellipsis marker. -/
def neverSplitsWord (s : List Char) : Prop :=
  truncate s 150 = s ∨
  ∃ k : Nat, 0 < k ∧ k < 150 ∧ s[k]? = some ' ' ∧
    truncate s 150 = s.take k ++ ellipsis

end Query

/-! ## Analyze stage handler (cmd/analysis/main.go handleAnalyze) -/

namespace Analysis

/-- store.DocumentStatus. -/
inductive DocumentStatus where
  | processing
  | ready
  | failed
deriving DecidableEq

/-- store.Chunk (ids are opaque naturals). -/
structure Chunk where
  id : Nat
  documentID : Nat
  index : Int
  text : String
  tokenCount : Int
deriving DecidableEq

/-- store.Document. -/
structure Document where
  id : Nat
  filename : String
  status : DocumentStatus
  createdAt : Int
deriving DecidableEq

/-- store.Embedding: vectors are lists of rationals. -/
structure Embedding where
  chunkID : Nat
  vector : List ℚ
  model : String
deriving DecidableEq

/-- The outcomes of the collaborator calls made during one handleAnalyze
invocation: uuid.Parse, Store.ListChunks, LLM.Summarize, Store.SaveSummary,
Store.GetDocument, Embedder.EmbedBatch, Store.SaveEmbeddings,
Store.UpdateDocumentStatus (for the failable writes, none means success). -/
structure AnalyzeEnv where
  parseDocID : Except String Nat
  listChunks : Except String (List Chunk)
  summarize : String → Except String (String × List String)
  saveSummaryErr : Option String
  getDocument : Except String Document
  embedBatch : List String → Except String (List (List ℚ))
  saveEmbeddingsErr : Option String
  updateStatusErr : Option String
  embeddingModel : String

/-- The store state handleAnalyze can modify for this document: its
status, its saved summary, and its saved embeddings. -/
structure AnalyzeState where
  status : DocumentStatus
  summary : Option (String × List String)
  embeddings : Option (List Embedding)
deriving DecidableEq

/-- cmd/analysis concatenateChunks: all chunk texts joined with trailing
newlines. -/
def concatenateChunks (chunks : List Chunk) : String :=
  chunks.foldl (fun acc c => acc ++ c.text ++ "\n") ""

/-- The contextual-enrichment texts embedded for the chunks. -/
def enrichedTexts (doc : Document) (chunks : List Chunk) : List String :=
  chunks.map fun c => "Document: " ++ doc.filename ++ "\n\n" ++ c.text

/-- The embeddings slice built before SaveEmbeddings: one entry per
chunk, pairing chunk ids with the returned vectors positionally. -/
def builtEmbeddings (model : String) (chunks : List Chunk)
    (vectors : List (List ℚ)) : List Embedding :=
  chunks.mapIdx fun i c => ⟨c.id, vectors.getD i [], model⟩

/-- handleAnalyze: parse the document id, list the chunks, summarize and
save the summary, fetch the document, embed the enriched chunk texts,
save the embeddings as one batch, then mark the document ready. Any
failure returns the error immediately, leaving the state writes made so
far. -/
def handleAnalyze (env : AnalyzeEnv) (st : AnalyzeState) :
    Except String Unit × AnalyzeState :=
  match env.parseDocID with
  | .error e => (.error e, st)
  | .ok _ =>
    match env.listChunks with
    | .error e => (.error e, st)
    | .ok chunks =>
      match env.summarize (concatenateChunks chunks) with
      | .error e => (.error e, st)
      | .ok (summaryText, keyPoints) =>
        match env.saveSummaryErr with
        | some e => (.error e, st)
        | none =>
          match env.getDocument with
          | .error e => (.error ("failed to get document: " ++ e),
              { st with summary := some (summaryText, keyPoints) })
          | .ok doc =>
            match env.embedBatch (enrichedTexts doc chunks) with
            | .error e => (.error ("failed to generate embeddings: " ++ e),
                { st with summary := some (summaryText, keyPoints) })
            | .ok vectors =>
              match env.saveEmbeddingsErr with
              | some e => (.error e,
                  { st with summary := some (summaryText, keyPoints) })
              | none =>
                match env.updateStatusErr with
                | some e => (.error e,
                    { st with
                      summary := some (summaryText, keyPoints),
                      embeddings := some (builtEmbeddings env.embeddingModel
                        chunks vectors) })
                | none => (.ok (),
                    { st with
                      summary := some (summaryText, keyPoints),
                      embeddings := some (builtEmbeddings env.embeddingModel
                        chunks vectors),
                      status := .ready })

end Analysis

namespace Chunker

theorem effMaxTokens_pos (o : Options) : 0 < effMaxTokens o := by
  unfold effMaxTokens
  split
  · norm_num
  · rename_i h
    omega

theorem stride_pos (o : Options) : 0 < stride o := by
  unfold stride
  have h := effMaxTokens_pos o
  split <;> omega

theorem stride_le (o : Options) : stride o ≤ effMaxTokens o := by
  unfold stride
  split <;> omega

/-- The window loop always exits within its fuel bound when the stride is
positive: with fuel exceeding the number of remaining tokens it returns
some result. -/
theorem windowsLoop_some (words : List (List Char)) (m s : Nat)
    (hs : 0 < s) :
    ∀ fuel start, words.length - start < fuel →
      ∃ ws, windowsLoop words m s fuel start = some ws := by
  intro fuel
  induction fuel with
  | zero => intro start h; omega
  | succ n ih =>
    intro start h
    rw [windowsLoop]
    by_cases hlt : start < words.length
    · simp only [hlt, if_true]
      by_cases hend : start + m ≥ words.length
      · simp [hend]
      · simp only [hend, if_false]
        obtain ⟨ws, hws⟩ := ih (start + s) (by omega)
        exact ⟨_, by rw [hws]; rfl⟩
    · simp [hlt]

/-- A completed window loop starting inside the token list yields at least
one window. -/
theorem windowsLoop_ne_nil (words : List (List Char)) (m s : Nat) :
    ∀ fuel start ws, start < words.length →
      windowsLoop words m s fuel start = some ws → ws ≠ [] := by
  intro fuel
  cases fuel with
  | zero => intro start ws _ h; simp [windowsLoop] at h
  | succ n =>
    intro start ws hlt h
    rw [windowsLoop] at h
    simp only [hlt, if_true] at h
    by_cases hend : start + m ≥ words.length
    · simp only [hend, if_true] at h
      cases h
      simp
    · simp only [hend, if_false, Option.map_eq_some'] at h
      obtain ⟨rest, _, hw⟩ := h
      subst hw
      simp

/-- Window count: a completed loop starting at start < N produces exactly
ceil((N - start - m) / s) + 1 windows (in truncated-subtraction form). -/
theorem windowsLoop_length (words : List (List Char)) (m s : Nat)
    (hs : 0 < s) (hsm : s ≤ m) :
    ∀ fuel start ws, start < words.length →
      windowsLoop words m s fuel start = some ws →
      ws.length = (words.length - start - m + s - 1) / s + 1 := by
  intro fuel
  induction fuel with
  | zero => intro start ws _ h; simp [windowsLoop] at h
  | succ n ih =>
    intro start ws hlt h
    rw [windowsLoop] at h
    simp only [hlt, if_true] at h
    by_cases hend : start + m ≥ words.length
    · simp only [hend, if_true] at h
      cases h
      have hz : words.length - start - m = 0 := by omega
      rw [hz]
      rw [Nat.div_eq_of_lt (by omega)]
      simp
    · simp only [hend, if_false, Option.map_eq_some'] at h
      obtain ⟨rest, hrest, hw⟩ := h
      subst hw
      have hlt' : start + s < words.length := by omega
      have hr := ih (start + s) rest (by omega) hrest
      simp only [List.length_cons, hr]
      have hX : 1 ≤ words.length - start - m := by omega
      set X := words.length - start - m with hXdef
      have hX' : words.length - (start + s) - m = X - s := by omega
      rw [hX']
      rcases le_or_lt s X with hc | hc
      · have h1 : X + s - 1 = (X - s + s - 1) + s := by omega
        rw [h1, Nat.add_div_right _ hs]
      · have h1 : X - s = 0 := by omega
        rw [h1]
        have h2 : (X + s - 1) / s = 1 := by
          apply Nat.div_eq_of_lt_le <;> omega
        have h3 : (0 + s - 1) / s = 0 := Nat.div_eq_of_lt (by omega)
        rw [h2, h3]

theorem reconTokens_cons (v : Nat) (w : List (List Char))
    (ws : List (List (List Char))) (h : ws ≠ []) :
    reconTokens v (w :: ws) = w.take (w.length - v) ++ reconTokens v ws := by
  cases ws with
  | nil => exact absurd rfl h
  | cons x xs => rfl

/-- Window-level reconstruction: keeping each non-final window short of its
last v = m - s tokens and the final window whole rebuilds the token
stream from position start. -/
theorem windowsLoop_recon (words : List (List Char)) (m s v : Nat)
    (hs : 0 < s) (hv : v < m) (hsv : s = m - v) :
    ∀ fuel start ws, start < words.length →
      windowsLoop words m s fuel start = some ws →
      reconTokens v ws = words.drop start := by
  intro fuel
  induction fuel with
  | zero => intro start ws _ h; simp [windowsLoop] at h
  | succ n ih =>
    intro start ws hlt h
    rw [windowsLoop] at h
    simp only [hlt, if_true] at h
    by_cases hend : start + m ≥ words.length
    · simp only [hend, if_true] at h
      cases h
      show reconTokens v [(words.drop start).take m] = words.drop start
      have hlen : (words.drop start).length ≤ m := by
        rw [List.length_drop]; omega
      simp [reconTokens, List.take_of_length_le hlen]
    · simp only [hend, if_false, Option.map_eq_some'] at h
      obtain ⟨rest, hrest, hw⟩ := h
      subst hw
      have hlt' : start + s < words.length := by omega
      have hne : rest ≠ [] :=
        windowsLoop_ne_nil words m s n (start + s) rest hlt' hrest
      rw [reconTokens_cons v _ rest hne, ih (start + s) rest hlt' hrest]
      have hwlen : ((words.drop start).take m).length = m := by
        rw [List.length_take, List.length_drop]; omega
      rw [hwlen, List.take_take]
      have hmin : min (m - v) m = s := by omega
      rw [hmin]
      have hdd : words.drop (start + s) = (words.drop start).drop s := by
        rw [List.drop_drop]
      rw [hdd, List.take_append_drop]

/-- Non-empty accumulators flush to a non-empty word. -/
theorem reverse_mem_wf (acc : List Char) (he : ¬acc.isEmpty = true)
    (hacc : ∀ c ∈ acc, isSpaceChar c = false) :
    acc.reverse ≠ [] ∧ ∀ c ∈ acc.reverse, isSpaceChar c = false := by
  constructor
  · simp only [ne_eq, List.reverse_eq_nil_iff]
    intro hnil
    rw [hnil] at he
    exact he rfl
  · intro c hc
    exact hacc c (List.mem_reverse.mp hc)

/-- Every word produced by the splitter is non-empty and free of
whitespace characters. -/
theorem fieldsAux_wf :
    ∀ (s acc : List Char), (∀ c ∈ acc, isSpaceChar c = false) →
      ∀ w ∈ fieldsAux s acc, w ≠ [] ∧ ∀ c ∈ w, isSpaceChar c = false := by
  intro s
  induction s with
  | nil =>
    intro acc hacc w hw
    rw [fieldsAux] at hw
    split at hw
    · simp at hw
    · rw [List.mem_singleton] at hw
      subst hw
      rename_i he
      exact reverse_mem_wf acc he hacc
  | cons c s ih =>
    intro acc hacc w hw
    rw [fieldsAux] at hw
    split at hw
    · split at hw
      · exact ih [] (by simp) w hw
      · rcases List.mem_cons.mp hw with hw | hw
        · subst hw
          rename_i he
          exact reverse_mem_wf acc he hacc
        · exact ih [] (by simp) w hw
    · rename_i hsp
      refine ih (c :: acc) ?_ w hw
      intro x hx
      rcases List.mem_cons.mp hx with hx | hx
      · subst hx
        simpa using hsp
      · exact hacc x hx

/-- Running the splitter across a whitespace-free word just extends the
accumulator. -/
theorem fieldsAux_append (w : List Char) (hw : ∀ c ∈ w, isSpaceChar c = false) :
    ∀ (s acc : List Char),
      fieldsAux (w ++ s) acc = fieldsAux s (w.reverse ++ acc) := by
  induction w with
  | nil => intro s acc; simp
  | cons c w ih =>
    intro s acc
    have hc : isSpaceChar c = false := hw c (by simp)
    rw [List.cons_append, fieldsAux]
    simp only [hc, if_false]
    rw [ih (fun x hx => hw x (by simp [hx])) s (c :: acc)]
    simp

/-- Round trip: joining whitespace-free non-empty words with single spaces
and re-splitting recovers exactly the word list. -/
theorem fields_joinWords (ws : List (List Char))
    (hwf : ∀ w ∈ ws, w ≠ [] ∧ ∀ c ∈ w, isSpaceChar c = false) :
    fields (joinWords ws) = ws := by
  induction ws with
  | nil => rfl
  | cons w ws ih =>
    have hrev : ¬(w.reverse ++ ([] : List Char)).isEmpty = true := by
      obtain ⟨hne, _⟩ := hwf w (by simp)
      simp only [List.append_nil, List.isEmpty_eq_false_iff_exists_mem]
      cases w with
      | nil => exact absurd rfl hne
      | cons c cs => exact fun h => by simp at h
    cases ws with
    | nil =>
      obtain ⟨hne, hnosp⟩ := hwf w (by simp)
      show fields (joinWords [w]) = [w]
      rw [joinWords]
      unfold fields
      rw [show w = w ++ [] from (List.append_nil w).symm, fieldsAux_append w hnosp]
      rw [fieldsAux, if_neg hrev]
      simp
    | cons w' ws' =>
      obtain ⟨hne, hnosp⟩ := hwf w (by simp)
      show fields (joinWords (w :: w' :: ws')) = w :: w' :: ws'
      rw [joinWords]
      unfold fields
      rw [fieldsAux_append w hnosp]
      rw [fieldsAux]
      have hsp : isSpaceChar ' ' = true := by decide
      rw [if_pos hsp, if_neg hrev]
      have := ih (fun x hx => hwf x (by simp [List.mem_cons] at hx ⊢; tauto))
      unfold fields at this
      rw [this]
      simp
      simp

/-- Every token of every window produced by the loop is a member of the
underlying token list. -/
theorem windowsLoop_tokens (words : List (List Char)) (m s : Nat) :
    ∀ fuel start ws, windowsLoop words m s fuel start = some ws →
      ∀ w ∈ ws, ∀ t ∈ w, t ∈ words := by
  intro fuel
  induction fuel with
  | zero => intro start ws h; simp [windowsLoop] at h
  | succ n ih =>
    intro start ws h w hw t ht
    rw [windowsLoop] at h
    by_cases hlt : start < words.length
    · simp only [hlt, if_true] at h
      by_cases hend : start + m ≥ words.length
      · simp only [hend, if_true] at h
        cases h
        simp only [List.mem_singleton] at hw
        subst hw
        exact List.mem_of_mem_drop (List.mem_of_mem_take ht)
      · simp only [hend, if_false, Option.map_eq_some'] at h
        obtain ⟨rest, hrest, hweq⟩ := h
        subst hweq
        rcases List.mem_cons.mp hw with hw | hw
        · subst hw
          exact List.mem_of_mem_drop (List.mem_of_mem_take ht)
        · exact ih (start + s) rest hrest w hw t ht
    · simp only [hlt, if_false] at h
      cases h
      simp at hw

/-- The words of any text are non-empty and whitespace-free. -/
theorem fields_wf (text : List Char) :
    ∀ w ∈ fields text, w ≠ [] ∧ ∀ c ∈ w, isSpaceChar c = false :=
  fieldsAux_wf text [] (by simp)

/-- On non-empty token streams ChunkText is the window loop run to
completion, with each window joined back into chunk text. -/
theorem ChunkText_eq_windows (text : List Char) (opts : Options)
    (h : (fields text).length ≠ 0) :
    ∃ ws, windowsLoop (fields text) (effMaxTokens opts) (stride opts)
        ((fields text).length + 1) 0 = some ws ∧
      ChunkText text opts =
        ws.mapIdx fun i w =>
          { index := i, text := joinWords w, tokenCount := w.length } := by
  obtain ⟨ws, hws⟩ := windowsLoop_some (fields text) (effMaxTokens opts)
    (stride opts) (stride_pos opts) ((fields text).length + 1) 0 (by omega)
  refine ⟨ws, hws, ?_⟩
  unfold ChunkText
  simp only [h, if_false, hws]

theorem stride_eq_sub (opts : Options)
    (hv : effOverlap opts < effMaxTokens opts) :
    stride opts = effMaxTokens opts - effOverlap opts := by
  unfold stride
  rw [if_neg (by omega)]

/-- C3: with effective window size m and overlap v, 0 ≤ v < m, ChunkText
returns zero chunks on an empty token stream, one chunk when 0 < N ≤ m,
and ceil((N - v) / (m - v)) chunks when N > m (N = number of whitespace
tokens). -/
theorem C3_chunk_count (text : List Char) (opts : Options)
    (hv : effOverlap opts < effMaxTokens opts) :
    ((fields text).length = 0 → ChunkText text opts = []) ∧
    (0 < (fields text).length →
      (fields text).length ≤ effMaxTokens opts →
      (ChunkText text opts).length = 1) ∧
    (effMaxTokens opts < (fields text).length →
      (ChunkText text opts).length =
        ((fields text).length - effOverlap opts
            + (effMaxTokens opts - effOverlap opts) - 1)
          / (effMaxTokens opts - effOverlap opts)) := by
  set N := (fields text).length with hN
  set m := effMaxTokens opts with hm
  set v := effOverlap opts with hvdef
  have hstr : stride opts = m - v := stride_eq_sub opts hv
  refine ⟨?_, ?_, ?_⟩
  · intro h0
    unfold ChunkText
    simp [← hN, h0]
  · intro hpos hle
    obtain ⟨ws, hws, hct⟩ := ChunkText_eq_windows text opts (by omega)
    rw [hct, List.length_mapIdx]
    have := windowsLoop_length (fields text) m (stride opts)
      (stride_pos opts) (by rw [hstr]; omega) (N + 1) 0 ws (by omega) hws
    rw [this, hstr]
    have hz : N - 0 - m = 0 := by omega
    rw [hz, Nat.div_eq_of_lt (by omega)]
  · intro hgt
    obtain ⟨ws, hws, hct⟩ := ChunkText_eq_windows text opts (by omega)
    rw [hct, List.length_mapIdx]
    have := windowsLoop_length (fields text) m (stride opts)
      (stride_pos opts) (by rw [hstr]; omega) (N + 1) 0 ws (by omega) hws
    rw [this, hstr]
    have hs : 0 < m - v := by omega
    have heq : N - v + (m - v) - 1 = (N - 0 - m + (m - v) - 1) + (m - v) := by
      omega
    rw [heq, Nat.add_div_right _ hs]

/-- C4: dropping the trailing (effective) overlap tokens of every chunk
except the last and concatenating the remaining token sequences
reproduces exactly the whitespace token sequence of the original text. -/
theorem C4_chunk_reconstruction (text : List Char) (opts : Options)
    (hv : effOverlap opts < effMaxTokens opts) :
    reconChunks (effOverlap opts) (ChunkText text opts) = fields text := by
  by_cases h0 : (fields text).length = 0
  · unfold ChunkText
    simp only [← List.length_eq_zero.mp h0]
    simp [reconChunks, reconTokens, List.length_eq_zero.mp h0]
  · obtain ⟨ws, hws, hct⟩ := ChunkText_eq_windows text opts h0
    rw [hct]
    unfold reconChunks
    have hmap : (ws.mapIdx fun i w =>
        (⟨i, joinWords w, w.length⟩ : Chunk)).map (fun c => fields c.text)
        = ws.map fun w => fields (joinWords w) := by
      rw [List.mapIdx_eq_enum_map, List.map_map]
      have : ((fun c => fields c.text) ∘ Function.uncurry fun i w =>
          (⟨i, joinWords w, w.length⟩ : Chunk))
          = (fun w => fields (joinWords w)) ∘ Prod.snd := rfl
      rw [this, ← List.map_map, List.enum_map_snd]
    rw [hmap]
    have hid : ws.map (fun w => fields (joinWords w)) = ws := by
      have : ∀ w ∈ ws, fields (joinWords w) = w := by
        intro w hw
        refine fields_joinWords w ?_
        intro t ht
        exact fields_wf text t (windowsLoop_tokens _ _ _ _ _ _ hws w hw t ht)
      calc ws.map (fun w => fields (joinWords w)) = ws.map id :=
            List.map_congr_left this
        _ = ws := List.map_id ws
    rw [hid]
    exact windowsLoop_recon (fields text) (effMaxTokens opts) (stride opts)
      (effOverlap opts) (stride_pos opts) hv (stride_eq_sub opts hv)
      ((fields text).length + 1) 0 ws (by omega) hws

/-- C9: ChunkText terminates on every input: empty text gives no chunks,
non-positive max tokens defaults to 400, negative overlap defaults to 0,
an overlap at least the window size makes the stride fall back to the
window size, the stride is always positive, and the window loop completes
within one more iteration than there are tokens. -/
theorem C9_chunk_termination (text : List Char) (opts : Options) :
    (fields text = [] → ChunkText text opts = []) ∧
    (opts.maxTokens ≤ 0 → effMaxTokens opts = 400) ∧
    (opts.overlap < 0 → effOverlap opts = 0) ∧
    (effMaxTokens opts ≤ effOverlap opts → stride opts = effMaxTokens opts) ∧
    0 < stride opts ∧
    (∃ ws, windowsLoop (fields text) (effMaxTokens opts) (stride opts)
        ((fields text).length + 1) 0 = some ws) := by
  refine ⟨?_, ?_, ?_, ?_, stride_pos opts, ?_⟩
  · intro h0
    unfold ChunkText
    simp [h0]
  · intro h
    unfold effMaxTokens
    rw [if_pos h]
  · intro h
    unfold effOverlap
    rw [if_pos h]
  · intro h
    unfold stride
    rw [if_pos (by omega)]
  · exact windowsLoop_some (fields text) (effMaxTokens opts) (stride opts)
      (stride_pos opts) ((fields text).length + 1) 0 (by omega)

/-- Witness for C3: ten tokens, window 4, overlap 1 give ceil(9/3) = 3
chunks. -/
theorem C3_chunk_count_witness :
    (ChunkText "one two three four five six seven eight nine ten".toList
      ⟨4, 1⟩).length = 3 :=
  ((C3_chunk_count "one two three four five six seven eight nine ten".toList
    ⟨4, 1⟩ (by decide)).2.2 (by decide)).trans (by decide)

/-- Witness for C4 on a concrete ten-token text. -/
theorem C4_chunk_reconstruction_witness :
    reconChunks (effOverlap ⟨4, 1⟩)
        (ChunkText "one two three four five six seven eight nine ten".toList
          ⟨4, 1⟩)
      = fields "one two three four five six seven eight nine ten".toList :=
  C4_chunk_reconstruction
    "one two three four five six seven eight nine ten".toList ⟨4, 1⟩
    (by decide)

/-- Witness for C9 on concrete degenerate options. -/
theorem C9_chunk_termination_witness :
    ChunkText [] ⟨0, -1⟩ = [] ∧ effMaxTokens ⟨0, -1⟩ = 400 ∧
      effOverlap ⟨0, -1⟩ = 0 ∧ stride ⟨2, 5⟩ = effMaxTokens ⟨2, 5⟩ := by
  have h1 := C9_chunk_termination [] (⟨0, -1⟩ : Options)
  have h2 := C9_chunk_termination [] (⟨2, 5⟩ : Options)
  exact ⟨h1.1 (by decide), h1.2.1 (by decide), h1.2.2.1 (by decide),
    h2.2.2.2.1 (by decide)⟩

end Chunker

namespace Queue

theorem effectiveMax_ne_zero (t : Task) : effectiveMax t ≠ 0 := by
  unfold effectiveMax
  split <;> simp_all

/-- Characterization of the re-publish branch of retryTask. -/
theorem retryTask_eq_some_iff (now : Int) (t t' : Task) :
    retryTask now t = some t' ↔
      t.attempts + 1 < effectiveMax t ∧
      { t with
        attempts := t.attempts + 1,
        maxAttempts := effectiveMax t,
        notBefore := now + ExponentialBackoff (t.attempts + 1).toNat second }
        = t' := by
  simp only [retryTask, effectiveMax]
  split <;> split <;> simp_all

/-- Characterization of the permanent-failure branch of retryTask. -/
theorem retryTask_eq_none_iff (now : Int) (t : Task) :
    retryTask now t = none ↔ ¬(t.attempts + 1 < effectiveMax t) := by
  simp only [retryTask, effectiveMax]
  split <;> split <;> simp_all

theorem toInt64_eq_self (x : Int) (h1 : -(2 ^ 63) ≤ x) (h2 : x < 2 ^ 63) :
    toInt64 x = x := by
  unfold toInt64
  have e63 : (2 : Int) ^ 63 = 9223372036854775808 := by norm_num
  have e64 : (2 : Int) ^ 64 = 18446744073709551616 := by norm_num
  rw [e63, e64] at *
  rw [Int.emod_eq_of_lt (by omega) (by omega)]
  omega

/-- Without int64 overflow, ExponentialBackoff is exactly base * 2^attempt. -/
theorem ExponentialBackoff_exact (a : Nat) (base : Int) (hb : 0 ≤ base)
    (h : base * 2 ^ a < 2 ^ 63) :
    ExponentialBackoff a base = base * 2 ^ a := by
  have hpnn : (0 : Int) ≤ 2 ^ a := by positivity
  have hneg : -((2 : Int) ^ 63) ≤ 0 := by norm_num
  rcases eq_or_lt_of_le hb with hb0 | hbpos
  · rw [← hb0]
    unfold ExponentialBackoff
    rw [zero_mul, zero_mul, toInt64_eq_self 0 (by norm_num) (by norm_num)]
  · have h1b : (1 : Int) ≤ base := hbpos
    have hle : (2 : Int) ^ a ≤ base * 2 ^ a := le_mul_of_one_le_left hpnn h1b
    have hpow := lt_of_le_of_lt hle h
    unfold ExponentialBackoff
    rw [toInt64_eq_self (2 ^ a) (le_trans hneg hpnn) hpow]
    exact toInt64_eq_self _ (le_trans hneg (mul_nonneg hb hpnn)) h

/-- Closed form for the delivery count of an always-failing handler. -/
theorem alwaysFailDeliveries_eq (now : Int) (t : Task) :
    alwaysFailDeliveries now t = max (effectiveMax t - t.attempts).toNat 1 := by
  suffices H : ∀ (k : Nat) (u : Task), (effectiveMax u - u.attempts).toNat ≤ k →
      alwaysFailDeliveries now u = max (effectiveMax u - u.attempts).toNat 1 by
    exact H _ t le_rfl
  intro k
  induction k with
  | zero =>
    intro u hk
    rw [alwaysFailDeliveries]
    split
    · rename_i t' hsome
      have := ((retryTask_eq_some_iff now u t').mp hsome).1
      omega
    · omega
  | succ k ih =>
    intro u hk
    rw [alwaysFailDeliveries]
    split
    · rename_i t' hsome
      obtain ⟨hlt, ht'⟩ := (retryTask_eq_some_iff now u t').mp hsome
      have ha : t'.attempts = u.attempts + 1 := by rw [← ht']
      have hm2 : t'.maxAttempts = effectiveMax u := by rw [← ht']
      have hmax' : effectiveMax t' = effectiveMax u := by
        show (if t'.maxAttempts = 0 then 5 else t'.maxAttempts) = effectiveMax u
        rw [hm2, if_neg (effectiveMax_ne_zero u)]
      have hmeas : (effectiveMax t' - t'.attempts).toNat ≤ k := by
        rw [hmax', ha]
        omega
      rw [ih t' hmeas, hmax', ha]
      have h1 : (1 : Nat) ≤ (effectiveMax u - (u.attempts + 1)).toNat := by omega
      have h2 : (1 : Nat) ≤ (effectiveMax u - u.attempts).toNat := by omega
      rw [max_eq_left h1, max_eq_left h2]
      omega
    · rename_i hnone
      have := (retryTask_eq_none_iff now u).mp hnone
      omega

/-- C1: on handler error the queue increments the task's attempts; while
the incremented count is below max_attempts (defaulting to 5 when unset)
the task is re-published with not_before pushed to now plus
base * 2^attempts (base = 1s, exact while within int64 range), otherwise
it is permanently failed and never re-published; hence a task with
max_attempts = 5 whose handler always fails is handled exactly 5 times
and never redelivered a 6th time. -/
theorem C1_retry_backoff_cap :
    (∀ (now : Int) (t t' : Task), retryTask now t = some t' →
      t'.attempts = t.attempts + 1 ∧
      t'.attempts < effectiveMax t ∧
      t'.notBefore = now + ExponentialBackoff (t.attempts + 1).toNat second) ∧
    (∀ (now : Int) (t : Task),
      retryTask now t = none ↔ ¬(t.attempts + 1 < effectiveMax t)) ∧
    (∀ a : Nat, a ≤ 33 → ExponentialBackoff a second = second * 2 ^ a) ∧
    (∀ (now : Int) (t : Task),
      alwaysFailDeliveries now t = max (effectiveMax t - t.attempts).toNat 1) ∧
    (∀ (now : Int) (i : Nat) (ty : String) (pl : List Nat) (nb : Int),
      alwaysFailDeliveries now ⟨i, ty, pl, 0, 5, nb⟩ = 5) := by
  refine ⟨?_, retryTask_eq_none_iff, ?_, alwaysFailDeliveries_eq, ?_⟩
  · intro now t t' hsome
    obtain ⟨hlt, ht'⟩ := (retryTask_eq_some_iff now t t').mp hsome
    refine ⟨by rw [← ht'], ?_, by rw [← ht']⟩
    rw [← ht']
    exact hlt
  · intro a ha
    apply ExponentialBackoff_exact
    · norm_num [second]
    · have h2 : (2 : Int) ^ a ≤ 2 ^ 33 := pow_le_pow_right (by norm_num) ha
      calc second * 2 ^ a ≤ second * 2 ^ 33 := by
            apply mul_le_mul_of_nonneg_left h2 (by norm_num [second])
        _ < 2 ^ 63 := by norm_num [second]
  · intro now i ty pl nb
    rw [alwaysFailDeliveries_eq]
    rfl

/-- Witness for C1 at concrete inputs. -/
theorem C1_retry_backoff_cap_witness :
    (1 : Nat) ≤ 33 ∧ ExponentialBackoff 1 second = second * 2 ^ 1 ∧
    retryTask 7 ⟨1, "parse", [], 4, 5, 0⟩ = none ∧
    alwaysFailDeliveries 0 ⟨1, "parse", [], 0, 5, 0⟩ = 5 :=
  ⟨by decide, C1_retry_backoff_cap.2.2.1 1 (by decide),
   (C1_retry_backoff_cap.2.1 7 ⟨1, "parse", [], 4, 5, 0⟩).mpr (by decide),
   C1_retry_backoff_cap.2.2.2.2 0 1 "parse" [] 0⟩

theorem loop_step_success {E : Type} (enq : Nat → Option E)
    (cancelled : Nat → Bool) (base : Int) (attempts attempt : Nat)
    (hlt : attempt < attempts) (henq : enq attempt = none) :
    enqueueWithRetryLoop enq cancelled base attempts attempt =
      ⟨.success, 1, []⟩ := by
  rw [enqueueWithRetryLoop, dif_pos hlt, henq]

theorem loop_step_last {E : Type} (enq : Nat → Option E)
    (cancelled : Nat → Bool) (base : Int) (attempts attempt : Nat) (e : E)
    (hlt : attempt < attempts) (hlast : attempt = attempts - 1)
    (henq : enq attempt = some e) :
    enqueueWithRetryLoop enq cancelled base attempts attempt =
      ⟨.failed e, 1, []⟩ := by
  rw [enqueueWithRetryLoop, dif_pos hlt, henq]
  dsimp only
  rw [if_pos hlast]

theorem loop_step_cancel {E : Type} (enq : Nat → Option E)
    (cancelled : Nat → Bool) (base : Int) (attempts attempt : Nat) (e : E)
    (hlt : attempt < attempts) (hlast : attempt ≠ attempts - 1)
    (henq : enq attempt = some e) (hc : cancelled attempt = true) :
    enqueueWithRetryLoop enq cancelled base attempts attempt =
      ⟨.ctxCancelled, 1, []⟩ := by
  rw [enqueueWithRetryLoop, dif_pos hlt, henq]
  dsimp only
  rw [if_neg hlast, if_pos hc]

theorem loop_step_retry {E : Type} (enq : Nat → Option E)
    (cancelled : Nat → Bool) (base : Int) (attempts attempt : Nat) (e : E)
    (hlt : attempt < attempts) (hlast : attempt ≠ attempts - 1)
    (henq : enq attempt = some e) (hc : cancelled attempt = false) :
    enqueueWithRetryLoop enq cancelled base attempts attempt =
      ⟨(enqueueWithRetryLoop enq cancelled base attempts (attempt + 1)).outcome,
       (enqueueWithRetryLoop enq cancelled base attempts (attempt + 1)).calls + 1,
       ExponentialBackoff attempt base ::
         (enqueueWithRetryLoop enq cancelled base attempts (attempt + 1)).waits⟩ := by
  conv_lhs => rw [enqueueWithRetryLoop]
  rw [dif_pos hlt, henq]
  dsimp only
  rw [if_neg hlast, if_neg (by rw [hc]; simp)]

/-- Trace of the loop when attempt i is the first success: every earlier
attempt fails without cancellation, so the loop makes i - attempt + 1
calls and waits the exponential backoff after each failure. -/
theorem loop_success_trace {E : Type} (enq : Nat → Option E)
    (cancelled : Nat → Bool) (base : Int) (attempts i : Nat)
    (hi : i < attempts) (henq : enq i = none) :
    ∀ d attempt, i - attempt ≤ d → attempt ≤ i →
      (∀ j, attempt ≤ j → j < i → (enq j).isSome ∧ cancelled j = false) →
      enqueueWithRetryLoop enq cancelled base attempts attempt =
        ⟨.success, i - attempt + 1,
         (List.range' attempt (i - attempt)).map
           fun j => ExponentialBackoff j base⟩ := by
  intro d
  induction d with
  | zero =>
    intro attempt h1 h2 _
    have heq : attempt = i := by omega
    subst heq
    rw [loop_step_success enq cancelled base attempts attempt hi henq]
    simp [Nat.sub_self]
  | succ d ih =>
    intro attempt h1 h2 hpre
    by_cases heq : attempt = i
    · subst heq
      rw [loop_step_success enq cancelled base attempts attempt hi henq]
      simp [Nat.sub_self]
    · have hai : attempt < i := by omega
      obtain ⟨hsome, hcan⟩ := hpre attempt le_rfl hai
      obtain ⟨e, he⟩ := Option.isSome_iff_exists.mp hsome
      rw [loop_step_retry enq cancelled base attempts attempt e (by omega)
        (by omega) he hcan]
      rw [ih (attempt + 1) (by omega) (by omega)
        (fun j hj1 hj2 => hpre j (by omega) hj2)]
      have h3 : i - attempt = (i - (attempt + 1)) + 1 := by omega
      rw [h3, List.range'_succ]
      simp

/-- Trace of the loop when the caller cancels during the wait after
failed attempt i (with at least one attempt still to go). -/
theorem loop_cancel_trace {E : Type} (enq : Nat → Option E)
    (cancelled : Nat → Bool) (base : Int) (attempts i : Nat)
    (hi : i + 1 < attempts) (hci : cancelled i = true)
    (henq : ∀ j, j ≤ i → (enq j).isSome) :
    ∀ d attempt, i - attempt ≤ d → attempt ≤ i →
      (∀ j, attempt ≤ j → j < i → cancelled j = false) →
      enqueueWithRetryLoop enq cancelled base attempts attempt =
        ⟨.ctxCancelled, i - attempt + 1,
         (List.range' attempt (i - attempt)).map
           fun j => ExponentialBackoff j base⟩ := by
  intro d
  induction d with
  | zero =>
    intro attempt h1 h2 _
    have heq : attempt = i := by omega
    subst heq
    obtain ⟨e, he⟩ := Option.isSome_iff_exists.mp (henq attempt le_rfl)
    rw [loop_step_cancel enq cancelled base attempts attempt e (by omega)
      (by omega) he hci]
    simp [Nat.sub_self]
  | succ d ih =>
    intro attempt h1 h2 hpre
    by_cases heq : attempt = i
    · subst heq
      obtain ⟨e, he⟩ := Option.isSome_iff_exists.mp (henq attempt le_rfl)
      rw [loop_step_cancel enq cancelled base attempts attempt e (by omega)
        (by omega) he hci]
      simp [Nat.sub_self]
    · have hai : attempt < i := by omega
      obtain ⟨e, he⟩ := Option.isSome_iff_exists.mp (henq attempt (by omega))
      rw [loop_step_retry enq cancelled base attempts attempt e (by omega)
        (by omega) he (hpre attempt le_rfl hai)]
      rw [ih (attempt + 1) (by omega) (by omega)
        (fun j hj1 hj2 => hpre j (by omega) hj2)]
      have h3 : i - attempt = (i - (attempt + 1)) + 1 := by omega
      rw [h3, List.range'_succ]
      simp

/-- Trace of the loop when every attempt fails and nothing is cancelled:
the loop returns the error of the final attempt after making all its
calls. -/
theorem loop_fail_trace {E : Type} (enq : Nat → Option E)
    (cancelled : Nat → Bool) (base : Int) (attempts : Nat) (err : Nat → E)
    (henq : ∀ j, j < attempts → enq j = some (err j))
    (hcan : ∀ j, cancelled j = false) (hpos : 0 < attempts) :
    ∀ d attempt, attempts - 1 - attempt ≤ d → attempt ≤ attempts - 1 →
      enqueueWithRetryLoop enq cancelled base attempts attempt =
        ⟨.failed (err (attempts - 1)), attempts - attempt,
         (List.range' attempt (attempts - 1 - attempt)).map
           fun j => ExponentialBackoff j base⟩ := by
  intro d
  induction d with
  | zero =>
    intro attempt h1 h2
    have heq : attempt = attempts - 1 := by omega
    rw [loop_step_last enq cancelled base attempts attempt
      (err (attempts - 1)) (by omega) heq (by rw [heq]; exact henq _ (by omega))]
    have h4 : attempts - attempt = 1 := by omega
    have h5 : attempts - 1 - attempt = 0 := by omega
    rw [h4, h5]
    simp
  | succ d ih =>
    intro attempt h1 h2
    by_cases heq : attempt = attempts - 1
    · rw [loop_step_last enq cancelled base attempts attempt
        (err (attempts - 1)) (by omega) heq
        (by rw [heq]; exact henq _ (by omega))]
      have h4 : attempts - attempt = 1 := by omega
      have h5 : attempts - 1 - attempt = 0 := by omega
      rw [h4, h5]
      simp
    · rw [loop_step_retry enq cancelled base attempts attempt (err attempt)
        (by omega) heq (henq attempt (by omega)) (hcan attempt)]
      rw [ih (attempt + 1) (by omega) (by omega)]
      have h3 : attempts - 1 - attempt = (attempts - 1 - (attempt + 1)) + 1 := by
        omega
      have h4 : attempts - attempt = (attempts - (attempt + 1)) + 1 := by omega
      rw [h3, h4, List.range'_succ]
      simp

/-- C8: EnqueueWithRetry makes at most n Enqueue calls (n = attempts
normalized to at least 1), returns success as soon as some call succeeds,
waits base * 2^i (as ExponentialBackoff) after the i-th failed attempt,
returns the context error when the caller cancels while waiting, and
returns the final attempt's error after all n attempts fail. -/
theorem C8_enqueue_with_retry {E : Type} (enq : Nat → Option E)
    (cancelled : Nat → Bool) (base : Int) (attempts : Int) :
    (attempts ≤ 0 → enqueueAttempts attempts = 1) ∧
    (∀ i, i < enqueueAttempts attempts → enq i = none →
      (∀ j, j < i → (enq j).isSome ∧ cancelled j = false) →
      EnqueueWithRetry enq cancelled attempts base =
        ⟨.success, i + 1,
         (List.range i).map fun j => ExponentialBackoff j base⟩) ∧
    (∀ i, i + 1 < enqueueAttempts attempts → cancelled i = true →
      (∀ j, j ≤ i → (enq j).isSome) → (∀ j, j < i → cancelled j = false) →
      EnqueueWithRetry enq cancelled attempts base =
        ⟨.ctxCancelled, i + 1,
         (List.range i).map fun j => ExponentialBackoff j base⟩) ∧
    (∀ err : Nat → E,
      (∀ j, j < enqueueAttempts attempts → enq j = some (err j)) →
      (∀ j, cancelled j = false) →
      EnqueueWithRetry enq cancelled attempts base =
        ⟨.failed (err (enqueueAttempts attempts - 1)), enqueueAttempts attempts,
         (List.range (enqueueAttempts attempts - 1)).map
           fun j => ExponentialBackoff j base⟩) := by
  refine ⟨?_, ?_, ?_, ?_⟩
  · intro h
    unfold enqueueAttempts
    rw [if_pos h]
  · intro i hi henq hpre
    unfold EnqueueWithRetry
    rw [loop_success_trace enq cancelled base (enqueueAttempts attempts) i hi
      henq i 0 (by omega) (by omega) (fun j hj1 hj2 => hpre j hj2)]
    rw [Nat.sub_zero, List.range_eq_range']
  · intro i hi hci henq hpre
    unfold EnqueueWithRetry
    rw [loop_cancel_trace enq cancelled base (enqueueAttempts attempts) i hi
      hci henq i 0 (by omega) (by omega) (fun j hj1 hj2 => hpre j hj2)]
    rw [Nat.sub_zero, List.range_eq_range']
  · intro err henq hcan
    have hpos : 0 < enqueueAttempts attempts := by
      unfold enqueueAttempts
      split
      · omega
      · rename_i h
        omega
    unfold EnqueueWithRetry
    rw [loop_fail_trace enq cancelled base (enqueueAttempts attempts) err henq
      hcan hpos (enqueueAttempts attempts - 1) 0 (by omega) (by omega)]
    simp [List.range_eq_range']

/-- Witness for C8: three Enqueue attempts where the third succeeds yield
success after 3 calls with the first two backoff waits; three always
failing attempts yield the final error after 3 calls. -/
theorem C8_enqueue_with_retry_witness :
    EnqueueWithRetry (fun i => if i < 2 then some "err" else none)
        (fun _ => false) 5 100 =
      ⟨.success, 3, [ExponentialBackoff 0 100, ExponentialBackoff 1 100]⟩ ∧
    EnqueueWithRetry (fun _ => some "boom") (fun _ => false) 3 100 =
      ⟨.failed "boom", 3, [ExponentialBackoff 0 100, ExponentialBackoff 1 100]⟩ := by
  constructor
  · have h := (C8_enqueue_with_retry (fun i => if i < 2 then some "err" else none)
      (fun _ => false) 100 5).2.1 2 (by decide) (by decide)
      (by intro j hj; refine ⟨?_, rfl⟩; simp only [Option.isSome]; split <;> simp_all)
    rw [h]
    rfl
  · have h := (C8_enqueue_with_retry (fun _ => some "boom")
      (fun _ => false) 100 3).2.2.2 (fun _ => "boom")
      (fun j _ => rfl) (fun j => rfl)
    rw [h]
    rfl

end Queue

namespace Cache

theorem swap_perm {α : Type} (a : List α) (d : α) (i j : Nat)
    (hij : i < j) (hj : j < a.length) :
    ((a.set i (a.getD j d)).set j (a.getD i d)).Perm a := by
  have hi : i < a.length := lt_trans hij hj
  have hgi : a.getD i d = a[i] := List.getD_eq_getElem a d hi
  have hgj : a.getD j d = a[j] := List.getD_eq_getElem a d hj
  rw [hgi, hgj]
  have hset1 : a.set i a[j] = a.take i ++ a[j] :: a.drop (i + 1) :=
    List.set_eq_take_cons_drop _ hi
  have hlen1 : (a.set i a[j]).length = a.length := List.length_set a i _
  have hset2 : (a.set i a[j]).set j a[i]
      = (a.set i a[j]).take j ++ a[i] :: (a.set i a[j]).drop (j + 1) :=
    List.set_eq_take_cons_drop _ (by rw [hlen1]; exact hj)
  have hlentake : (a.take i).length = i := by
    rw [List.length_take]
    omega
  have htake : (a.set i a[j]).take j
      = a.take i ++ a[j] :: (a.drop (i + 1)).take (j - i - 1) := by
    rw [hset1, List.take_append_eq_append_take, hlentake]
    have h1 : (a.take i).take j = a.take i := by
      rw [List.take_take]
      have : min j i = i := by omega
      rw [this]
    rw [h1]
    have h2 : j - i = (j - i - 1) + 1 := by omega
    rw [h2, List.take_cons]
    omega
  have hdrop : (a.set i a[j]).drop (j + 1) = a.drop (j + 1) := by
    rw [hset1, List.drop_append_eq_append_drop, hlentake]
    have h1 : (a.take i).drop (j + 1) = [] := by
      apply List.drop_eq_nil_of_le
      rw [hlentake]
      omega
    rw [h1, List.nil_append]
    have h2 : j + 1 - i = (j - i - 1) + 2 := by omega
    rw [h2]
    show (a.drop (i + 1)).drop (j - i - 1 + 1) = a.drop (j + 1)
    rw [List.drop_drop]
    have h3 : i + 1 + (j - i - 1 + 1) = j + 1 := by omega
    rw [h3]
  have hadecomp : a = a.take i ++ a[i] ::
      ((a.drop (i + 1)).take (j - i - 1) ++ a[j] :: a.drop (j + 1)) := by
    conv_lhs => rw [← List.take_append_drop i a]
    congr 1
    rw [List.drop_eq_getElem_cons hi]
    congr 1
    conv_lhs => rw [← List.take_append_drop (j - i - 1) (a.drop (i + 1))]
    congr 1
    rw [List.drop_drop]
    have h4 : i + 1 + (j - i - 1) = j := by omega
    rw [h4, List.drop_eq_getElem_cons hj]
  rw [hset2, htake, hdrop]
  conv_rhs => rw [hadecomp]
  rw [List.append_assoc, List.cons_append]
  apply List.Perm.append_left
  have p1 : ((a.drop (i + 1)).take (j - i - 1) ++ a[i] :: a.drop (j + 1)).Perm
      (a[i] :: ((a.drop (i + 1)).take (j - i - 1) ++ a.drop (j + 1))) :=
    List.perm_middle
  have p2 : ((a.drop (i + 1)).take (j - i - 1) ++ a[j] :: a.drop (j + 1)).Perm
      (a[j] :: ((a.drop (i + 1)).take (j - i - 1) ++ a.drop (j + 1))) :=
    List.perm_middle
  exact (p1.cons a[j]).trans
    ((List.Perm.swap a[i] a[j] _).trans (p2.cons a[i]).symm)

theorem getD_set_self (l : List String) (i : Nat) (x d : String)
    (h : i < l.length) : (l.set i x).getD i d = x := by
  rw [List.getD_eq_getElem?_getD, List.getElem?_set_self',
    List.getElem?_eq_getElem h]
  rfl

theorem getD_set_of_ne (l : List String) (i k : Nat) (x d : String)
    (hne : i ≠ k) : (l.set i x).getD k d = l.getD k d := by
  rw [List.getD_eq_getElem?_getD, List.getElem?_set_ne hne,
    ← List.getD_eq_getElem?_getD]

theorem innerLoop_eq_swapStep (n i : Nat) (a : List String) (j : Nat)
    (h : j < n) :
    innerLoop n i a j = innerLoop n i (swapStep i j a) (j + 1) := by
  rw [innerLoop, if_pos h]
  rfl

theorem innerLoop_stop (n i : Nat) (a : List String) (j : Nat)
    (h : ¬j < n) : innerLoop n i a j = a := by
  rw [innerLoop, if_neg h]

theorem swapStep_length (i j : Nat) (a : List String) :
    (swapStep i j a).length = a.length := by
  unfold swapStep
  split <;> simp [List.length_set]

theorem swapStep_perm (i j : Nat) (a : List String) (hij : i < j)
    (hj : j < a.length) : (swapStep i j a).Perm a := by
  unfold swapStep
  split
  · exact swap_perm a "" i j hij hj
  · exact List.Perm.refl a

theorem swapStep_getD_of_ne (i j : Nat) (a : List String) (k : Nat)
    (hki : k ≠ i) (hkj : k ≠ j) :
    (swapStep i j a).getD k "" = a.getD k "" := by
  unfold swapStep
  split
  · rw [getD_set_of_ne _ _ _ _ _ (by omega), getD_set_of_ne _ _ _ _ _ (by omega)]
  · rfl

theorem swapStep_getD_i (i j : Nat) (a : List String) (hij : i < j)
    (hj : j < a.length) :
    (swapStep i j a).getD i "" = min (a.getD i "") (a.getD j "") := by
  unfold swapStep
  split
  · rename_i hgt
    rw [getD_set_of_ne _ _ _ _ _ (by omega),
      getD_set_self _ _ _ _ (by omega)]
    exact (min_eq_right (le_of_lt hgt)).symm
  · rename_i hle
    exact (min_eq_left (not_lt.mp hle)).symm

theorem swapStep_getD_j (i j : Nat) (a : List String) (hij : i < j)
    (hj : j < a.length) :
    (swapStep i j a).getD j "" = max (a.getD i "") (a.getD j "") := by
  unfold swapStep
  split
  · rename_i hgt
    rw [getD_set_self _ _ _ _ (by simp [List.length_set]; omega)]
    exact (max_eq_left (le_of_lt hgt)).symm
  · rename_i hle
    exact (max_eq_right (not_lt.mp hle)).symm

theorem innerLoop_length (n i : Nat) :
    ∀ (f : Nat) (a : List String) (j : Nat), n - j ≤ f →
      (innerLoop n i a j).length = a.length := by
  intro f
  induction f with
  | zero =>
    intro a j h
    rw [innerLoop_stop n i a j (by omega)]
  | succ f ih =>
    intro a j h
    by_cases hj : j < n
    · rw [innerLoop_eq_swapStep n i a j hj]
      rw [ih _ (j + 1) (by omega), swapStep_length]
    · rw [innerLoop_stop n i a j hj]

theorem innerLoop_perm (n i : Nat) :
    ∀ (f : Nat) (a : List String) (j : Nat), n - j ≤ f → i < j →
      n ≤ a.length → (innerLoop n i a j).Perm a := by
  intro f
  induction f with
  | zero =>
    intro a j h _ _
    rw [innerLoop_stop n i a j (by omega)]
  | succ f ih =>
    intro a j h hij hna
    by_cases hj : j < n
    · rw [innerLoop_eq_swapStep n i a j hj]
      refine (ih (swapStep i j a) (j + 1) (by omega) (by omega) ?_).trans
        (swapStep_perm i j a hij (by omega))
      rw [swapStep_length]
      exact hna
    · rw [innerLoop_stop n i a j hj]

theorem innerLoop_getD_lt (n i : Nat) :
    ∀ (f : Nat) (a : List String) (j : Nat), n - j ≤ f →
      ∀ k, k < j → k ≠ i →
        (innerLoop n i a j).getD k "" = a.getD k "" := by
  intro f
  induction f with
  | zero =>
    intro a j h k _ _
    rw [innerLoop_stop n i a j (by omega)]
  | succ f ih =>
    intro a j h k hkj hki
    by_cases hj : j < n
    · rw [innerLoop_eq_swapStep n i a j hj]
      rw [ih _ (j + 1) (by omega) k (by omega) hki]
      exact swapStep_getD_of_ne i j a k hki (by omega)
    · rw [innerLoop_stop n i a j hj]

/-- After the inner loop, position i holds a value no larger than the one
it started with and no larger than any position in [j, n). -/
theorem innerLoop_min (n i : Nat) :
    ∀ (f : Nat) (a : List String) (j : Nat), n - j ≤ f → i < j →
      n ≤ a.length →
      (innerLoop n i a j).getD i "" ≤ a.getD i "" ∧
      (∀ k, j ≤ k → k < n →
        (innerLoop n i a j).getD i "" ≤ (innerLoop n i a j).getD k "") := by
  intro f
  induction f with
  | zero =>
    intro a j h hij hna
    rw [innerLoop_stop n i a j (by omega)]
    exact ⟨le_refl _, fun k hk1 hk2 => absurd hk2 (by omega)⟩
  | succ f ih =>
    intro a j h hij hna
    by_cases hj : j < n
    · rw [innerLoop_eq_swapStep n i a j hj]
      have hlen : n ≤ (swapStep i j a).length := by
        rw [swapStep_length]
        exact hna
      obtain ⟨ih1, ih2⟩ := ih (swapStep i j a) (j + 1) (by omega) (by omega) hlen
      have hstep_i : (swapStep i j a).getD i "" ≤ a.getD i "" := by
        rw [swapStep_getD_i i j a hij (by omega)]
        exact min_le_left _ _
      have hstep_ij : (swapStep i j a).getD i "" ≤ (swapStep i j a).getD j "" := by
        rw [swapStep_getD_i i j a hij (by omega),
          swapStep_getD_j i j a hij (by omega)]
        exact min_le_max
      refine ⟨le_trans ih1 hstep_i, ?_⟩
      intro k hk1 hk2
      by_cases hkj : k = j
      · rw [hkj]
        rw [innerLoop_getD_lt n i f (swapStep i j a) (j + 1) (by omega) j
          (by omega) (by omega)]
        exact le_trans ih1 hstep_ij
      · exact ih2 k (by omega) hk2
    · rw [innerLoop_stop n i a j hj]
      exact ⟨le_refl _, fun k hk1 hk2 => absurd hk2 (by omega)⟩

/-- Every value the inner loop leaves at position i or in [j, n) came from
position i or [j, n) of the input. -/
theorem innerLoop_source (n i : Nat) :
    ∀ (f : Nat) (a : List String) (j : Nat), n - j ≤ f → i < j →
      ∀ k, (k = i ∨ (j ≤ k ∧ k < n)) →
        ∃ k', (k' = i ∨ (j ≤ k' ∧ k' < n)) ∧
          (innerLoop n i a j).getD k "" = a.getD k' "" := by
  intro f
  induction f with
  | zero =>
    intro a j h hij k hk
    rw [innerLoop_stop n i a j (by omega)]
    exact ⟨k, hk, rfl⟩
  | succ f ih =>
    intro a j h hij k hk
    by_cases hj : j < n
    · rw [innerLoop_eq_swapStep n i a j hj]
      have hsrc : ∀ k'', (k'' = i ∨ (j ≤ k'' ∧ k'' < n)) →
          ∃ k', (k' = i ∨ (j ≤ k' ∧ k' < n)) ∧
            (swapStep i j a).getD k'' "" = a.getD k' "" := by
        intro k'' hk''
        unfold swapStep
        split
        · by_cases hi'' : k'' = i
          · rw [hi'']
            refine ⟨j, Or.inr ⟨le_refl j, hj⟩, ?_⟩
            rw [getD_set_of_ne _ _ _ _ _ (by omega)]
            by_cases hlt : i < a.length
            · rw [getD_set_self _ _ _ _ hlt]
            · rw [List.set_eq_of_length_le (by omega)]
              rw [List.getD_eq_default _ _ (by omega),
                List.getD_eq_default _ _ (by omega)]
          · by_cases hj'' : k'' = j
            · rw [hj'']
              by_cases hlt : j < a.length
              · refine ⟨i, Or.inl rfl, ?_⟩
                rw [getD_set_self _ _ _ _ (by simp [List.length_set]; omega)]
              · refine ⟨j, Or.inr ⟨le_refl j, hj⟩, ?_⟩
                rw [List.getD_eq_default _ _ (by simp [List.length_set]; omega),
                  List.getD_eq_default _ _ (by omega)]
            · refine ⟨k'', hk'', ?_⟩
              rw [getD_set_of_ne _ _ _ _ _ (by omega),
                getD_set_of_ne _ _ _ _ _ (by omega)]
        · exact ⟨k'', hk'', rfl⟩
      by_cases hkj : k = j
      · rw [hkj]
        rw [innerLoop_getD_lt n i f (swapStep i j a) (j + 1) (by omega) j
          (by omega) (by omega)]
        exact hsrc j (Or.inr ⟨le_refl j, hj⟩)
      · obtain ⟨k'', hk'', hval⟩ := ih (swapStep i j a) (j + 1) (by omega)
          (by omega) k (by omega)
        obtain ⟨k', hk', hval'⟩ := hsrc k'' (by omega)
        exact ⟨k', hk', hval.trans hval'⟩
    · rw [innerLoop_stop n i a j hj]
      exact ⟨k, hk, rfl⟩

theorem outerLoop_length (n : Nat) :
    ∀ (f : Nat) (a : List String) (i : Nat), n - i ≤ f →
      (outerLoop n a i).length = a.length := by
  intro f
  induction f with
  | zero =>
    intro a i h
    rw [outerLoop, if_neg (by omega)]
  | succ f ih =>
    intro a i h
    rw [outerLoop]
    split
    · rename_i hi
      rw [ih _ (i + 1) (by omega), innerLoop_length n i (n - (i + 1)) a (i + 1) le_rfl]
    · rfl

theorem outerLoop_perm (n : Nat) :
    ∀ (f : Nat) (a : List String) (i : Nat), n - i ≤ f → n ≤ a.length →
      (outerLoop n a i).Perm a := by
  intro f
  induction f with
  | zero =>
    intro a i h _
    rw [outerLoop, if_neg (by omega)]
  | succ f ih =>
    intro a i h hna
    rw [outerLoop]
    split
    · rename_i hi
      have hp1 := innerLoop_perm n i (n - (i + 1)) a (i + 1) le_rfl
        (by omega) hna
      refine (ih _ (i + 1) (by omega) ?_).trans hp1
      rw [innerLoop_length n i (n - (i + 1)) a (i + 1) le_rfl]
      exact hna
    · exact List.Perm.refl a

/-- The outer loop sorts: starting from a state whose prefix [0, i) is
sorted and bounds everything in [i, n), the final list is pairwise sorted
over [0, n). -/
theorem outerLoop_sorted (n : Nat) :
    ∀ (f : Nat) (a : List String) (i : Nat), n - i ≤ f → n = a.length →
      (∀ k l, k < l → l < i → a.getD k "" ≤ a.getD l "") →
      (∀ k l, k < i → i ≤ l → l < n → a.getD k "" ≤ a.getD l "") →
      ∀ k l, k < l → l < n →
        (outerLoop n a i).getD k "" ≤ (outerLoop n a i).getD l "" := by
  intro f
  induction f with
  | zero =>
    intro a i h hn hpre1 hpre2 k l hkl hln
    rw [outerLoop, if_neg (by omega)]
    exact hpre1 k l hkl (by omega)
  | succ f ih =>
    intro a i h hn hpre1 hpre2 k l hkl hln
    rw [outerLoop]
    split
    · rename_i hi
      set r1 := innerLoop n i a (i + 1) with hr1
      have hlen1 : r1.length = a.length :=
        innerLoop_length n i (n - (i + 1)) a (i + 1) le_rfl
      have hpres : ∀ k', k' < i → r1.getD k' "" = a.getD k' "" := by
        intro k' hk'
        exact innerLoop_getD_lt n i (n - (i + 1)) a (i + 1) le_rfl k'
          (by omega) (by omega)
      have hsrc : ∀ k', (k' = i ∨ (i + 1 ≤ k' ∧ k' < n)) →
          ∃ k'', (k'' = i ∨ (i + 1 ≤ k'' ∧ k'' < n)) ∧
            r1.getD k' "" = a.getD k'' "" := by
        intro k' hk'
        exact innerLoop_source n i (n - (i + 1)) a (i + 1) le_rfl
          (by omega) k' hk'
      have hmin := innerLoop_min n i (n - (i + 1)) a (i + 1) le_rfl
        (by omega) (by omega)
      refine ih r1 (i + 1) (by omega) (by omega) ?_ ?_ k l hkl hln
      · intro k' l' hkl' hl'
        by_cases hl'i : l' < i
        · rw [hpres k' (by omega), hpres l' (by omega)]
          exact hpre1 k' l' hkl' hl'i
        · have hl'eq : l' = i := by omega
          rw [hl'eq, hpres k' (by omega)]
          obtain ⟨k'', hk'', hval⟩ := hsrc i (Or.inl rfl)
          rw [hval]
          rcases hk'' with hk'' | hk''
          · exact hpre2 k' k'' (by omega) (by omega) (by omega)
          · exact hpre2 k' k'' (by omega) (by omega) (by omega)
      · intro k' l' hk' hl'1 hl'2
        by_cases hk'i : k' < i
        · rw [hpres k' (by omega)]
          obtain ⟨k'', hk'', hval⟩ := hsrc l' (Or.inr ⟨hl'1, hl'2⟩)
          rw [hval]
          rcases hk'' with hk'' | hk''
          · exact hpre2 k' k'' (by omega) (by omega) (by omega)
          · exact hpre2 k' k'' (by omega) (by omega) (by omega)
        · have hk'eq : k' = i := by omega
          rw [hk'eq]
          exact hmin.2 l' hl'1 hl'2
    · rename_i hi
      exact hpre1 k l hkl (by omega)

theorem sortStrings_perm (a : List String) : (sortStrings a).Perm a :=
  outerLoop_perm a.length a.length a 0 (by omega) le_rfl

theorem sortStrings_length (a : List String) :
    (sortStrings a).length = a.length :=
  outerLoop_length a.length a.length a 0 (by omega)

theorem sortStrings_sorted (a : List String) :
    List.Sorted (· ≤ ·) (sortStrings a) := by
  apply List.pairwise_iff_getElem.mpr
  intro i j hi hj hij
  have hlen : (sortStrings a).length = a.length := sortStrings_length a
  have h := outerLoop_sorted a.length a.length a 0 (by omega) rfl
    (fun k l _ hl => absurd hl (by omega))
    (fun k l hk _ _ => absurd hk (by omega)) i j hij (by omega)
  rw [List.getD_eq_getElem _ _ (by exact hi), List.getD_eq_getElem _ _ (by exact hj)] at h
  exact h

/-- Two permutations of the same ids sort to the same list. -/
theorem sortStrings_eq_of_perm (l1 l2 : List String) (h : l1.Perm l2) :
    sortStrings l1 = sortStrings l2 :=
  List.eq_of_perm_of_sorted
    ((sortStrings_perm l1).trans (h.trans (sortStrings_perm l2).symm))
    (sortStrings_sorted l1) (sortStrings_sorted l2)

/-- C6: GenerateCacheKey is order-independent in the doc ids — any
permutation of the id list yields the same key, in particular [a,b] and
[b,a] — and deterministic: the key is exactly the digest of the canonical
string built from the question, the sorted ids and top_k. -/
theorem C6_cache_key_order_independence :
    (∀ (hash : String → String) (q : String) (l1 l2 : List String) (k : Int),
      l1.Perm l2 →
      GenerateCacheKey hash q l1 k = GenerateCacheKey hash q l2 k) ∧
    (∀ (hash : String → String) (q a b : String) (k : Int),
      GenerateCacheKey hash q [a, b] k = GenerateCacheKey hash q [b, a] k) ∧
    (∀ (hash : String → String) (q : String) (ids : List String) (k : Int),
      GenerateCacheKey hash q ids k = hash (canonicalString q ids k)) := by
  have hmain : ∀ (hash : String → String) (q : String) (l1 l2 : List String)
      (k : Int), l1.Perm l2 →
      GenerateCacheKey hash q l1 k = GenerateCacheKey hash q l2 k := by
    intro hash q l1 l2 k hperm
    unfold GenerateCacheKey canonicalString
    rw [sortStrings_eq_of_perm l1 l2 hperm]
  exact ⟨hmain,
    fun hash q a b k => hmain hash q [a, b] [b, a] k (List.Perm.swap b a []),
    fun _ _ _ _ => rfl⟩

/-- Witness for C6 at concrete inputs. -/
theorem C6_cache_key_order_independence_witness :
    GenerateCacheKey (fun s => s) "q" ["b", "a"] 3
      = GenerateCacheKey (fun s => s) "q" ["a", "b"] 3 :=
  C6_cache_key_order_independence.1 (fun s => s) "q" ["b", "a"] ["a", "b"] 3
    (by decide)

theorem innerLoopS_step (n i : Nat) (st : KeyGenState) (j : Nat)
    (h : j < n) :
    innerLoopS n i st j = innerLoopS n i
      { docIDs := st.docIDs, sortedIDs := swapStep i j st.sortedIDs }
      (j + 1) := by
  rw [innerLoopS, if_pos h]
  show innerLoopS n i
      (if st.sortedIDs.getD i "" > st.sortedIDs.getD j "" then
        { st with sortedIDs := (st.sortedIDs.set i
            (st.sortedIDs.getD j "")).set j (st.sortedIDs.getD i "") }
      else st) (j + 1) = _
  unfold swapStep
  by_cases hc : st.sortedIDs.getD i "" > st.sortedIDs.getD j ""
  · rw [if_pos hc, if_pos hc]
  · rw [if_neg hc, if_neg hc]

/-- The state-level inner loop only rewrites the sortedIDs slice: it acts
as the pure inner loop on sortedIDs and never touches docIDs. -/
theorem innerLoopS_eq (n i : Nat) :
    ∀ (f : Nat) (st : KeyGenState) (j : Nat), n - j ≤ f →
      innerLoopS n i st j =
        { docIDs := st.docIDs,
          sortedIDs := innerLoop n i st.sortedIDs j } := by
  intro f
  induction f with
  | zero =>
    intro st j h
    rw [innerLoopS, if_neg (by omega), innerLoop_stop n i _ j (by omega)]
  | succ f ih =>
    intro st j h
    by_cases hj : j < n
    · rw [innerLoopS_step n i st j hj, ih _ (j + 1) (by omega),
        innerLoop_eq_swapStep n i _ j hj]
    · rw [innerLoopS, if_neg hj, innerLoop_stop n i _ j hj]

/-- The state-level outer loop likewise never touches docIDs. -/
theorem outerLoopS_eq (n : Nat) :
    ∀ (f : Nat) (st : KeyGenState) (i : Nat), n - i ≤ f →
      outerLoopS n st i =
        { docIDs := st.docIDs,
          sortedIDs := outerLoop n st.sortedIDs i } := by
  intro f
  induction f with
  | zero =>
    intro st i h
    rw [outerLoopS, if_neg (by omega)]
    conv_rhs => rw [outerLoop, if_neg (by omega)]
  | succ f ih =>
    intro st i h
    by_cases hi : i < n
    · rw [outerLoopS, if_pos hi, ih _ (i + 1) (by omega),
        innerLoopS_eq n i (n - (i + 1)) st (i + 1) le_rfl]
      conv_rhs => rw [outerLoop, if_pos hi]
    · rw [outerLoopS, if_neg hi]
      conv_rhs => rw [outerLoop, if_neg hi]

/-- C10: GenerateCacheKey never mutates the caller's doc_ids slice — the
sort happens on the private copy — and the returned key is the digest of
the canonical string of the sorted copy. -/
theorem C10_cache_key_frame (hash : String → String) (q : String)
    (docIDs : List String) (k : Int) :
    (GenerateCacheKeyS hash q docIDs k).2.docIDs = docIDs ∧
    (GenerateCacheKeyS hash q docIDs k).1
      = GenerateCacheKey hash q docIDs k := by
  simp only [GenerateCacheKeyS, GenerateCacheKey, canonicalString, sortStrings]
  rw [outerLoopS_eq docIDs.length docIDs.length _ 0 (by omega)]
  exact ⟨rfl, rfl⟩

end Cache

namespace LLM

/-- C5: the combined confidence returned by Answer is
context_quality * generation_confidence, where the generation confidence
is the mean of e(logprob) when log-probabilities are present and defaults
to 1 when absent or empty; with context_quality = 0 the combined
confidence is 0. -/
theorem C5_answer_confidence (e : ℚ → ℚ) (choices : List ChatChoice)
    (cq : ℚ) :
    (∀ ans conf, Answer e choices cq = .ok (ans, conf) →
      ∃ c rest, choices = c :: rest ∧ ans = c.content ∧
        conf = cq * calculateLLMConfidence e c.logprobs) ∧
    calculateLLMConfidence e none = 1 ∧
    calculateLLMConfidence e (some []) = 1 ∧
    (∀ l : List ℚ, l ≠ [] →
      calculateLLMConfidence e (some l) = (l.map e).sum / l.length) ∧
    (∀ ans conf, cq = 0 → Answer e choices cq = .ok (ans, conf) →
      conf = 0) := by
  have hok : ∀ ans conf, Answer e choices cq = .ok (ans, conf) →
      ∃ c rest, choices = c :: rest ∧ ans = c.content ∧
        conf = cq * calculateLLMConfidence e c.logprobs := by
    intro ans conf h
    cases choices with
    | nil => exact absurd h (by simp [Answer])
    | cons c rest =>
      refine ⟨c, rest, rfl, ?_⟩
      have hred : Answer e (c :: rest) cq =
          if c.content = "" then .error "openai: no choices returned"
          else .ok (c.content, cq * calculateLLMConfidence e c.logprobs) := rfl
      rw [hred] at h
      split at h
      · exact absurd h (by simp)
      · rw [Except.ok.injEq, Prod.mk.injEq] at h
        exact ⟨h.1.symm, h.2.symm⟩
  refine ⟨hok, rfl, rfl, ?_, ?_⟩
  · intro l hl
    cases l with
    | nil => exact absurd rfl hl
    | cons x xs => rfl
  · intro ans conf hcq h
    obtain ⟨c, rest, _, _, hconf⟩ := hok ans conf h
    rw [hconf, hcq, zero_mul]

/-- Witness for C5: mean of the identity over logprobs [2, 4] is 3, and
zero context quality gives zero combined confidence. -/
theorem C5_answer_confidence_witness :
    calculateLLMConfidence (fun x => x) (some [2, 4]) = 3 ∧
    Answer (fun x => x) [⟨"hi", some [2, 4]⟩] 0 = .ok ("hi", 0) := by
  constructor
  · have h := (C5_answer_confidence (fun x => x) [] 0).2.2.2.1 [2, 4]
      (by decide)
    rw [h]
    norm_num
  · have h := (C5_answer_confidence (fun x => x) [⟨"hi", some [2, 4]⟩]
      0).2.2.2.2 "hi" (0 * calculateLLMConfidence (fun x => x) (some [2, 4]))
      rfl rfl
    conv_rhs => rw [← h]
    rfl

end LLM

namespace Query

/-- lastSpaceIndex is either -1 with no space present, or the position of
the last space. -/
theorem lastSpaceIndex_spec (l : List Char) :
    (lastSpaceIndex l = -1 ∧ ∀ c ∈ l, c ≠ ' ') ∨
    (∃ k : Nat, lastSpaceIndex l = k ∧ k < l.length ∧ l[k]? = some ' ' ∧
      ∀ m : Nat, k < m → m < l.length → l[m]? ≠ some ' ') := by
  induction l with
  | nil => exact Or.inl ⟨rfl, by simp⟩
  | cons c rest ih =>
    rcases ih with ⟨h1, h2⟩ | ⟨k, hk1, hk2, hk3, hk4⟩
    · by_cases hc : c = ' '
      · refine Or.inr ⟨0, ?_, by simp, by rw [List.getElem?_cons_zero, hc], ?_⟩
        · rw [lastSpaceIndex]
          rw [h1]
          norm_num
          exact hc
        · intro m hm1 hm2
          have hm3 : m - 1 < rest.length := by simp at hm2; omega
          have : (c :: rest)[m]? = rest[m - 1]? := by
            have hm : m = (m - 1) + 1 := by omega
            rw [hm]
            exact List.getElem?_cons_succ
          rw [this, List.getElem?_eq_getElem hm3]
          intro hcontra
          rw [Option.some.injEq] at hcontra
          exact h2 _ (List.getElem_mem hm3) hcontra
      · refine Or.inl ⟨?_, ?_⟩
        · rw [lastSpaceIndex, h1]
          simp [hc]
        · intro x hx
          rcases List.mem_cons.mp hx with hx | hx
          · rw [hx]; exact hc
          · exact h2 x hx
    · refine Or.inr ⟨k + 1, ?_, by simp; omega, by simpa using hk3, ?_⟩
      · rw [lastSpaceIndex, hk1]
        have : ((k : Int) ≥ 0) := by omega
        rw [if_pos this]
        push_cast
        ring
      · intro m hm1 hm2
        have hm : m = (m - 1) + 1 := by omega
        rw [hm, List.getElem?_cons_succ]
        exact hk4 (m - 1) (by omega) (by simp at hm2; omega)

set_option maxRecDepth 10000 in
/-- C7 counterexample: a 151-character word with no spaces is cut
mid-word: the result neither equals the input nor ends at a space
boundary. -/
theorem C7_truncate_counterexample :
    ¬ neverSplitsWord (List.replicate 151 'a') := by
  intro h
  rcases h with h | ⟨k, hk0, hk150, hsp, _⟩
  · have hlen : (truncate (List.replicate 151 'a') 150).length = 153 := by
      decide
    have h2 := congrArg List.length h
    rw [hlen, List.length_replicate] at h2
    exact absurd h2 (by decide)
  · rw [List.getElem?_replicate, if_pos (by omega)] at hsp
    rw [Option.some.injEq] at hsp
    exact absurd hsp (by decide)

/-- C7 amended: truncate(s, 150) equals s when s has at most 150
characters; otherwise it ends at a space boundary of s followed by the
ellipsis marker when the first 150 characters contain a space at a
positive index, and is the hard 150-character cut followed by the marker
when they do not; its length never exceeds 153. -/
theorem C7_truncate_word_boundary (s : List Char) :
    (s.length ≤ 150 → truncate s 150 = s) ∧
    (150 < s.length →
      (∃ k : Nat, 0 < k ∧ k < 150 ∧ s[k]? = some ' ' ∧
        truncate s 150 = s.take k ++ ellipsis) ∨
      ((∀ k : Nat, 0 < k → k < 150 → s[k]? ≠ some ' ') ∧
        truncate s 150 = s.take 150 ++ ellipsis)) ∧
    (truncate s 150).length ≤ 153 := by
  by_cases hlen : s.length ≤ 150
  · refine ⟨fun _ => ?_, fun h => absurd h (by omega), ?_⟩
    · unfold truncate
      rw [if_pos hlen]
    · unfold truncate
      rw [if_pos hlen]
      omega
  · have h150 : (s.take 150).length = 150 := by
      rw [List.length_take]
      omega
    have hgetEq : ∀ m : Nat, m < 150 → s[m]? = (s.take 150)[m]? := by
      intro m hm
      rw [List.getElem?_take, if_pos hm]
    have htr : truncate s 150 =
        if lastSpaceIndex (s.take 150) > 0 then
          s.take (lastSpaceIndex (s.take 150)).toNat ++ ellipsis
        else s.take 150 ++ ellipsis := by
      unfold truncate
      rw [if_neg hlen]
    rcases lastSpaceIndex_spec (s.take 150) with ⟨hidx, hnosp⟩ |
      ⟨k, hk1, hk2, hk3, hk4⟩
    · rw [hidx, if_neg (by norm_num)] at htr
      refine ⟨fun h => absurd h (by omega), fun _ => Or.inr ⟨?_, htr⟩, ?_⟩
      · intro m hm0 hm150 hcontra
        rw [hgetEq m hm150] at hcontra
        exact hnosp ' ' (List.getElem?_mem hcontra) rfl
      · rw [htr]
        simp only [List.length_append, h150]
        decide
    · rw [h150] at hk2
      by_cases hk0 : 0 < k
      · rw [hk1, if_pos (by exact_mod_cast hk0), Int.toNat_natCast] at htr
        refine ⟨fun h => absurd h (by omega),
          fun _ => Or.inl ⟨k, hk0, hk2, ?_, htr⟩, ?_⟩
        · rw [hgetEq k hk2]
          exact hk3
        · rw [htr]
          simp only [List.length_append, List.length_take]
          have : ellipsis.length = 3 := by decide
          omega
      · have hkz : k = 0 := by omega
        rw [hkz] at hk1 hk4
        rw [hk1, if_neg (by norm_num)] at htr
        refine ⟨fun h => absurd h (by omega), fun _ => Or.inr ⟨?_, htr⟩, ?_⟩
        · intro m hm0 hm150 hcontra
          rw [hgetEq m hm150] at hcontra
          exact hk4 m (by omega) (by rw [h150]; exact hm150) hcontra
        · rw [htr]
          simp only [List.length_append, h150]
          decide

/-- Witness for the amended C7 at concrete inputs. -/
theorem C7_truncate_word_boundary_witness :
    truncate "hi".toList 150 = "hi".toList ∧
    (truncate (List.replicate 100 'a' ++ ' ' :: List.replicate 60 'b')
      150).length ≤ 153 :=
  ⟨(C7_truncate_word_boundary "hi".toList).1 (by decide),
   (C7_truncate_word_boundary
     (List.replicate 100 'a' ++ ' ' :: List.replicate 60 'b')).2.2⟩

end Query

namespace Analysis

theorem builtEmbeddings_length (model : String) (chunks : List Chunk)
    (vectors : List (List ℚ)) :
    (builtEmbeddings model chunks vectors).length = chunks.length :=
  List.length_mapIdx

/-- C2: the analyze handler marks the document ready only when the
summary and one embedding per listed chunk were persisted; on any failure
it returns the error with the status unchanged; failures after the
summary write leave the summary saved but the status unchanged; and the
status only ever changes to ready, on full success. -/
theorem C2_analyze_ready_only_after_persist (env : AnalyzeEnv)
    (st : AnalyzeState) :
    ((handleAnalyze env st).1 = .ok () →
      (handleAnalyze env st).2.status = .ready ∧
      env.saveSummaryErr = none ∧ env.saveEmbeddingsErr = none ∧
      ∃ chunks summaryText keyPoints,
        env.listChunks = .ok chunks ∧
        env.summarize (concatenateChunks chunks)
          = .ok (summaryText, keyPoints) ∧
        (handleAnalyze env st).2.summary = some (summaryText, keyPoints) ∧
        ∃ es, (handleAnalyze env st).2.embeddings = some es ∧
          es.length = chunks.length ∧
          ∀ (i : Nat) (hi : i < es.length) (hi' : i < chunks.length),
            (es.get ⟨i, hi⟩).chunkID = (chunks.get ⟨i, hi'⟩).id) ∧
    (∀ e, (handleAnalyze env st).1 = .error e →
      (handleAnalyze env st).2.status = st.status) ∧
    (∀ docID chunks summaryText keyPoints e,
      env.parseDocID = .ok docID →
      env.listChunks = .ok chunks →
      env.summarize (concatenateChunks chunks)
        = .ok (summaryText, keyPoints) →
      env.saveSummaryErr = none →
      (handleAnalyze env st).1 = .error e →
      (handleAnalyze env st).2.summary = some (summaryText, keyPoints) ∧
      (handleAnalyze env st).2.status = st.status) ∧
    ((handleAnalyze env st).2.status ≠ st.status →
      (handleAnalyze env st).2.status = .ready ∧
      (handleAnalyze env st).1 = .ok ()) := by
  rcases hp : env.parseDocID with e0 | docID
  · simp [handleAnalyze, hp]
  · rcases hl : env.listChunks with e1 | chunks
    · simp [handleAnalyze, hp, hl]
    · rcases hsum : env.summarize (concatenateChunks chunks) with e2 | ⟨stxt, kp⟩
      · simp [handleAnalyze, hp, hl, hsum]
        intro d' c' s' k' e h1 h2 h3 h4 h5
        subst h2
        rw [hsum] at h3
        exact Except.noConfusion h3
      · rcases hss : env.saveSummaryErr with _ | e3
        · rcases hdoc : env.getDocument with e4 | doc
          · have hres : handleAnalyze env st =
                (.error ("failed to get document: " ++ e4),
                 { st with summary := some (stxt, kp) }) := by
              simp [handleAnalyze, hp, hl, hsum, hss, hdoc]
            rw [hres]
            refine ⟨fun h => absurd h (by simp), fun e _ => rfl, ?_,
              fun hne => absurd rfl hne⟩
            intro docID' chunks' stxt' kp' e hpd' hl' hsum' hss' hres'
            injection hl' with hc
            subst hc
            rw [hsum] at hsum'
            injection hsum' with hpr
            rw [Prod.mk.injEq] at hpr
            obtain ⟨hs1, hs2⟩ := hpr
            subst hs1
            subst hs2
            exact ⟨rfl, rfl⟩
          · rcases hemb : env.embedBatch (enrichedTexts doc chunks)
              with e5 | vectors
            · have hres : handleAnalyze env st =
                  (.error ("failed to generate embeddings: " ++ e5),
                   { st with summary := some (stxt, kp) }) := by
                simp [handleAnalyze, hp, hl, hsum, hss, hdoc, hemb]
              rw [hres]
              refine ⟨fun h => absurd h (by simp), fun e _ => rfl, ?_,
                fun hne => absurd rfl hne⟩
              intro docID' chunks' stxt' kp' e hpd' hl' hsum' hss' hres'
              injection hl' with hc
              subst hc
              rw [hsum] at hsum'
              injection hsum' with hpr
              rw [Prod.mk.injEq] at hpr
              obtain ⟨hs1, hs2⟩ := hpr
              subst hs1
              subst hs2
              exact ⟨rfl, rfl⟩
            · rcases hse : env.saveEmbeddingsErr with _ | e6
              · rcases hus : env.updateStatusErr with _ | e7
                · have hres : handleAnalyze env st =
                      (.ok (),
                       { st with
                         summary := some (stxt, kp),
                         embeddings := some (builtEmbeddings
                           env.embeddingModel chunks vectors),
                         status := .ready }) := by
                    simp [handleAnalyze, hp, hl, hsum, hss, hdoc, hemb,
                      hse, hus]
                  rw [hres]
                  refine ⟨?_, fun e he => absurd he (by simp), ?_, fun _ => ⟨rfl, rfl⟩⟩
                  · intro _
                    refine ⟨rfl, rfl, rfl, chunks, stxt, kp, rfl, hsum, rfl,
                      builtEmbeddings env.embeddingModel chunks vectors, rfl,
                      builtEmbeddings_length env.embeddingModel chunks vectors,
                      ?_⟩
                    intro i hi hi'
                    show (builtEmbeddings env.embeddingModel chunks
                      vectors)[i].chunkID = chunks[i].id
                    unfold builtEmbeddings
                    rw [List.getElem_mapIdx]
                  · intro docID' chunks' stxt' kp' e _ _ _ _ hres'
                    exact absurd hres' (by simp)
                · have hres : handleAnalyze env st =
                      (.error e7,
                       { st with
                         summary := some (stxt, kp),
                         embeddings := some (builtEmbeddings
                           env.embeddingModel chunks vectors) }) := by
                    simp [handleAnalyze, hp, hl, hsum, hss, hdoc, hemb,
                      hse, hus]
                  rw [hres]
                  refine ⟨fun h => absurd h (by simp), fun e _ => rfl, ?_,
                    fun hne => absurd rfl hne⟩
                  intro docID' chunks' stxt' kp' e hpd' hl' hsum' hss' hres'
                  injection hl' with hc
                  subst hc
                  rw [hsum] at hsum'
                  injection hsum' with hpr
                  rw [Prod.mk.injEq] at hpr
                  obtain ⟨hs1, hs2⟩ := hpr
                  subst hs1
                  subst hs2
                  exact ⟨rfl, rfl⟩
              · have hres : handleAnalyze env st =
                    (.error e6, { st with summary := some (stxt, kp) }) := by
                  simp [handleAnalyze, hp, hl, hsum, hss, hdoc, hemb, hse]
                rw [hres]
                refine ⟨fun h => absurd h (by simp), fun e _ => rfl, ?_,
                  fun hne => absurd rfl hne⟩
                intro docID' chunks' stxt' kp' e hpd' hl' hsum' hss' hres'
                injection hl' with hc
                subst hc
                rw [hsum] at hsum'
                injection hsum' with hpr
                rw [Prod.mk.injEq] at hpr
                obtain ⟨hs1, hs2⟩ := hpr
                subst hs1
                subst hs2
                exact ⟨rfl, rfl⟩
        · simp [handleAnalyze, hp, hl, hsum, hss]

/-- Witness for C2: a fully successful run marks the document ready. -/
theorem C2_analyze_ready_only_after_persist_witness :
    (handleAnalyze
      { parseDocID := .ok 7,
        listChunks := .ok [⟨1, 7, 0, "hello", 1⟩],
        summarize := fun _ => .ok ("sum", ["point"]),
        saveSummaryErr := none,
        getDocument := .ok ⟨7, "f.txt", .processing, 0⟩,
        embedBatch := fun _ => .ok [[1]],
        saveEmbeddingsErr := none,
        updateStatusErr := none,
        embeddingModel := "m" }
      ⟨.processing, none, none⟩).2.status = .ready :=
  ((C2_analyze_ready_only_after_persist _ _).1 (by rfl)).1

end Analysis

end DocAgents
